import Mathlib

/-!
Verification of `stellargraph/data/unsupervised_sampler.py` (class
`UnsupervisedSampler`): a shallow embedding of the constructor validation,
`_check_parameter_values`, and the `run` pipeline (negative-sampling
distribution, walk-to-pair extraction, negative sampling, pair/label
assembly, shuffling, batching), together with theorems about the pipeline.

Modelling conventions:
* Python ints are `ℤ` (or `ℕ` for counts/indices), node ids are an
  arbitrary type `α`, numpy float arrays are lists over a linear ordered
  field `R` (instantiated at `ℝ` with the real power `x ^ (0.75 : ℝ)` for
  the numerical claims; the structural theorems hold for any weight
  function `pw`, standing for `x ** 0.75`).
* The external collaborators (the walker `walker.run`, numpy's
  `np_random.choice` and `np_random.permutation`) are modelled as
  deterministic functions of the seed and of a stream position that the
  engine advances, bundled in `RandomAlg`; theorems assume only their
  documented contracts (a permutation really permutes `range n`, `choice`
  returns `size` draws).
* `np.random.choice` validates its probability vector `p` and raises
  (e.g. "probabilities contain NaN" when the normalisation divided zero
  by zero, "probabilities do not sum to 1") before drawing; this
  validation is modelled by the guard `probs.sum = 1 ∧ all entries ≥ 0`,
  which over an exact field is passed precisely when the weight sum was
  nonzero (in IEEE arithmetic a zero weight sum makes every normalised
  entry NaN, and numpy's check fires).
* `np.array([])` built from an empty list of pairs is 1-dimensional, so
  the later `positive_pairs[:, 0]` raises `IndexError`; this is modelled
  by the `emptyPositivePairs` error raised exactly when the pair list is
  empty (after `choice`, matching Python's evaluation order).
-/

namespace UnsupervisedSampler

/-- A Python value passed as `batch_size`: `None`, an `int`, or a value of
some other (non-int) type. -/
inductive PyVal where
  | noneVal : PyVal
  | intVal : ℤ → PyVal
  | otherVal : PyVal
deriving DecidableEq

/-- The distinct errors `run` can raise: the four `_check_parameter_values`
failures (lines 206-236), numpy's rejection of an invalid probability
vector inside `np_random.choice` (line 178), and the `IndexError` from
`positive_pairs[:, 0]` on a 1-D empty array (line 181). -/
inductive RunError where
  | batchSizeMissing : RunError
  | batchSizeNotInt : RunError
  | batchSizeNotPositive : RunError
  | batchSizeOdd : RunError
  | probabilitiesInvalid : RunError
  | emptyPositivePairs : RunError
deriving DecidableEq

/-- The constructor errors of `__init__` modelled here: `nodes` not a real
iterable (line 99), walk length below 2 (lines 102-107), fewer than one
walk per root (lines 111-116). -/
inductive InitError where
  | nodesNotIterable : InitError
  | walkLengthTooShort : InitError
  | numberOfWalksTooSmall : InitError
deriving DecidableEq

/-- The `nodes` argument of `__init__`: omitted (`None`), a genuine
iterable of node ids, or a non-iterable scalar. -/
inductive NodesArg (α : Type) where
  | noneArg : NodesArg α
  | iterableArg : List α → NodesArg α
  | scalarArg : NodesArg α
deriving DecidableEq

/-- The state an `UnsupervisedSampler` instance holds after `__init__`:
the root nodes, walk length, number of walks, the seed, and the positions
of the two seeded random streams (`self.np_random` from
`random_state(seed)`, and the walker's own stream) that advance across
`run` calls. -/
structure SamplerState (α : Type) where
  nodes : List α
  length : ℤ
  numberOfWalks : ℤ
  seed : ℕ
  rngPos : ℕ
  walkerPos : ℕ
deriving DecidableEq

/-- The external random algorithms, as deterministic functions of
`(seed, stream position)`: `choice seed pos allNodes size p` models
`np_random.choice(all_nodes, size=size, p=p)`, `perm seed pos n` models
`np_random.permutation(n)`, and `walkerRun seed pos nodes length n` models
`walker.run(nodes=nodes, length=length, n=n)` returning the walks and the
walker's advanced stream position. -/
structure RandomAlg (α R : Type) where
  choice : ℕ → ℕ → List α → ℕ → List R → List α
  perm : ℕ → ℕ → ℕ → List ℕ
  walkerRun : ℕ → ℕ → List α → ℤ → ℤ → List (List α) × ℕ

/-- `UnsupervisedSampler._check_parameter_values` (lines 196-236): `None`
is rejected first, then a non-`int` type, then values below 1, then odd
values; a positive even integer is returned for use as the batch size. -/
def checkParameterValues : PyVal → Except RunError ℤ
  | .noneVal => .error .batchSizeMissing
  | .otherVal => .error .batchSizeNotInt
  | .intVal n =>
    if n < 1 then .error .batchSizeNotPositive
    else if n % 2 ≠ 0 then .error .batchSizeOdd
    else .ok n

/-- `UnsupervisedSampler.__init__` (lines 92-121): resolve the root nodes
(defaulting to all graph nodes, rejecting non-iterables), then require
walk length at least 2, then at least one walk per root; both random
streams start at position 0. -/
def initSampler {α : Type} (graphNodes : List α) (nodesArg : NodesArg α)
    (length numberOfWalks : ℤ) (seed : ℕ) : Except InitError (SamplerState α) :=
  match nodesArg with
  | .scalarArg => .error .nodesNotIterable
  | .noneArg =>
    if length < 2 then .error .walkLengthTooShort
    else if numberOfWalks < 1 then .error .numberOfWalksTooSmall
    else .ok ⟨graphNodes, length, numberOfWalks, seed, 0, 0⟩
  | .iterableArg l =>
    if length < 2 then .error .walkLengthTooShort
    else if numberOfWalks < 1 then .error .numberOfWalksTooSmall
    else .ok ⟨l, length, numberOfWalks, seed, 0, 0⟩

/-- Line 148, generically in the weight function `pw` (which stands for
`x ** 0.75`): `sampling_distribution = np.array([degrees[n] ** 0.75 for n
in all_nodes])`. -/
def samplingWeights {α R : Type} (pw : ℕ → R) (allNodes : List α)
    (degrees : α → ℕ) : List R :=
  allNodes.map fun n => pw (degrees n)

/-- Lines 149-151: `sampling_distribution_norm = sampling_distribution /
np.sum(sampling_distribution)`. -/
def samplingWeightsNorm {α R : Type} [LinearOrderedField R] (pw : ℕ → R)
    (allNodes : List α) (degrees : α → ℕ) : List R :=
  (samplingWeights pw allNodes degrees).map
    fun w => w / (samplingWeights pw allNodes degrees).sum

/-- Line 148 with the actual exponent: each node's weight is
`degree ** 0.75`, floats modelled as reals. -/
noncomputable def samplingDistribution {α : Type} (allNodes : List α)
    (degrees : α → ℕ) : List ℝ :=
  samplingWeights (fun d => (d : ℝ) ^ (0.75 : ℝ)) allNodes degrees

/-- Lines 149-151 with the actual exponent: the normalised
degree-to-the-0.75 distribution over `all_nodes`, in enumeration order. -/
noncomputable def samplingDistributionNorm {α : Type} (allNodes : List α)
    (degrees : α → ℕ) : List ℝ :=
  samplingWeightsNorm (fun d => (d : ℝ) ^ (0.75 : ℝ)) allNodes degrees

/-- Lines 167-176: `targets = [walk[0] for walk in walks]` and
`positive_pairs = [(target, positive_context) for target, walk in
zip(targets, walks) for positive_context in walk[1:]]`. -/
def positivePairsOf {α : Type} [Inhabited α] (walks : List (List α)) :
    List (α × α) :=
  ((walks.map fun walk => walk.headI).zip walks).flatMap
    fun tw => (tw.2.drop 1).map fun c => (tw.1, c)

/-- Lines 178-180: `negative_samples = self.np_random.choice(all_nodes,
size=len(positive_pairs), p=sampling_distribution_norm)`, at the engine's
current stream position; the p-vector validation is handled in `run`. -/
def drawNegatives {α R : Type} (alg : RandomAlg α R) (seed pos : ℕ)
    (allNodes : List α) (positivePairs : List (α × α)) (p : List R) :
    List α :=
  alg.choice seed pos allNodes positivePairs.length p

/-- Line 181: `negative_pairs = np.column_stack((positive_pairs[:, 0],
negative_samples))` — each positive pair's target, paired with the
corresponding drawn negative context. -/
def negativePairsOf {α : Type} (positivePairs : List (α × α))
    (negativeSamples : List α) : List (α × α) :=
  (positivePairs.map Prod.fst).zip negativeSamples

/-- Line 184: `labels = np.repeat([1, 0], len(positive_pairs))` — `count`
ones followed by `count` zeros. -/
def labelsOf (count : ℕ) : List ℕ :=
  List.replicate count 1 ++ List.replicate count 0

/-- Lines 190-192: `batch_indices = [indices[i : i + batch_size] for i in
range(0, len(indices), batch_size)]` — consecutive chunks of `batchSize`,
the last possibly shorter. The loop is written with an explicit fuel
(number of remaining loop iterations, at most the list length) so it is
structurally recursive; `run` only calls it with `batchSize ≥ 1`, for
which the fuel never runs out. -/
def chunksOfAux {β : Type} (batchSize : ℕ) : ℕ → List β → List (List β)
  | _, [] => []
  | 0, _ :: _ => []
  | fuel + 1, x :: xs =>
    (x :: xs).take batchSize ::
      chunksOfAux batchSize fuel ((x :: xs).drop batchSize)

/-- Entry point of the chunking loop: `l.length` steps always suffice,
since `run` only calls this with a positive `batchSize`. -/
def chunksOf {β : Type} (batchSize : ℕ) (l : List β) : List (List β) :=
  chunksOfAux batchSize l.length l

/-- `UnsupervisedSampler.run` (lines 123-194), generically in the weight
function `pw` (standing for `x ** 0.75`; see `runReal`). The steps in
source order: validate `batch_size`; build the normalised sampling
distribution from the current degrees; obtain the walks from the walker;
extract positive pairs; draw the negative samples via `np_random.choice`
(whose p-vector validation raises `probabilitiesInvalid` on a degenerate
distribution); build negative pairs from `positive_pairs[:, 0]` (raising
`emptyPositivePairs` when the pair array is empty and 1-D); concatenate
pairs, build labels, permute all indices, chunk them, and index the pair
and label arrays by each chunk. The two `np_random` draws advance the
stream by two positions; the walker advances its own stream. -/
def run {α R : Type} [Inhabited α] [LinearOrderedField R]
    (alg : RandomAlg α R) (pw : ℕ → R) (graphNodes : List α)
    (degrees : α → ℕ) (s : SamplerState α) (batchSize : PyVal) :
    Except RunError (List (List (α × α) × List ℕ) × SamplerState α) :=
  match checkParameterValues batchSize with
  | .error e => .error e
  | .ok batchSizeInt =>
    let allNodes := graphNodes
    let probs := samplingWeightsNorm pw allNodes degrees
    let walkerOut := alg.walkerRun s.seed s.walkerPos s.nodes s.length
      s.numberOfWalks
    let positivePairs := positivePairsOf walkerOut.1
    if probs.sum = 1 ∧ ∀ w ∈ probs, 0 ≤ w then
      let negativeSamples := drawNegatives alg s.seed s.rngPos allNodes
        positivePairs probs
      if positivePairs.isEmpty then .error .emptyPositivePairs
      else
        let negativePairs := negativePairsOf positivePairs negativeSamples
        let pairs := positivePairs ++ negativePairs
        let labels := labelsOf positivePairs.length
        let indices := alg.perm s.seed (s.rngPos + 1) pairs.length
        let batchIndices := chunksOf batchSizeInt.toNat indices
        .ok (batchIndices.map fun bi =>
              (bi.map fun i => pairs.getD i default,
               bi.map fun i => labels.getD i 0),
             ⟨s.nodes, s.length, s.numberOfWalks, s.seed, s.rngPos + 2,
              walkerOut.2⟩)
    else .error .probabilitiesInvalid

/-- `run` with the source's actual weights `degree ** 0.75` over the
reals (line 148). -/
noncomputable def runReal {α : Type} [Inhabited α] (alg : RandomAlg α ℝ)
    (graphNodes : List α) (degrees : α → ℕ) (s : SamplerState α)
    (batchSize : PyVal) :
    Except RunError (List (List (α × α) × List ℕ) × SamplerState α) :=
  run alg (fun d => (d : ℝ) ^ (0.75 : ℝ)) graphNodes degrees s batchSize

/-- A sequence of `run` calls on one engine instance: each successful call
advances the instance's stream state into the next call; a raised error
aborts the sequence (a Python exception propagates). -/
def runSeq {α R : Type} [Inhabited α] [LinearOrderedField R]
    (alg : RandomAlg α R) (pw : ℕ → R) (graphNodes : List α)
    (degrees : α → ℕ) : SamplerState α → List PyVal →
    List (Except RunError (List (List (α × α) × List ℕ)))
  | _, [] => []
  | s, b :: rest =>
    match run alg pw graphNodes degrees s b with
    | .error e => [.error e]
    | .ok (out, s2) => .ok out :: runSeq alg pw graphNodes degrees s2 rest

/-- The walks one `run` call obtains from the walker (lines 153-165). -/
def walksOf {α R : Type} (alg : RandomAlg α R) (s : SamplerState α) :
    List (List α) :=
  (alg.walkerRun s.seed s.walkerPos s.nodes s.length s.numberOfWalks).1

/-- The combined pair pool of one `run` call: positive pairs followed by
negative pairs (line 183). -/
def poolOf {α R : Type} [Inhabited α] [LinearOrderedField R]
    (alg : RandomAlg α R) (pw : ℕ → R) (graphNodes : List α)
    (degrees : α → ℕ) (s : SamplerState α) : List (α × α) :=
  positivePairsOf (walksOf alg s) ++
    negativePairsOf (positivePairsOf (walksOf alg s))
      (drawNegatives alg s.seed s.rngPos graphNodes
        (positivePairsOf (walksOf alg s))
        (samplingWeightsNorm pw graphNodes degrees))

/-- A concrete instantiation of the external random algorithms over `ℚ`
weights, used to evaluate the pipeline on concrete inputs: `choice` cycles
through the node list, `perm` is the identity permutation, and the walker
repeats each root for the requested length and count. -/
def algSimple : RandomAlg ℕ ℚ where
  choice := fun _ _ nodes size _ =>
    (List.range size).map fun i => nodes.getD (i % nodes.length) 0
  perm := fun _ _ m => List.range m
  walkerRun := fun _ pos roots length numberOfWalks =>
    (roots.flatMap fun r =>
      List.replicate numberOfWalks.toNat (List.replicate length.toNat r),
     pos + 1)

/-- The same concrete random algorithms with `ℝ`-valued probability
vectors (which the draws never inspect, so evaluation stays concrete). -/
def algRealSimple : RandomAlg ℕ ℝ where
  choice := fun _ _ nodes size _ => List.replicate size (nodes.getD 0 0)
  perm := fun _ _ m => List.range m
  walkerRun := fun _ pos roots length numberOfWalks =>
    (roots.flatMap fun r =>
      List.replicate numberOfWalks.toNat (List.replicate length.toNat r),
     pos + 1)

section Helpers

variable {α β R : Type}

theorem getD_range_map (l : List β) (d : β) :
    (List.range l.length).map (fun i => l.getD i d) = l := by
  induction l with
  | nil => simp
  | cons a t ih =>
    rw [List.length_cons, List.range_succ_eq_map, List.map_cons,
      List.map_map]
    refine congrArg₂ (· :: ·) rfl ?_
    simp only [Function.comp_def, List.getElem?_cons_succ]
    exact ih

theorem chunksOfAux_flatten (bs : ℕ) (hbs : 0 < bs) (fuel : ℕ) :
    ∀ l : List β, l.length ≤ fuel → (chunksOfAux bs fuel l).flatten = l := by
  induction fuel with
  | zero =>
    intro l hl
    cases l with
    | nil => rfl
    | cons x xs => simp at hl
  | succ fuel ih =>
    intro l hl
    cases l with
    | nil => rfl
    | cons x xs =>
      rw [chunksOfAux, List.flatten_cons, ih ((x :: xs).drop bs) ?_,
        List.take_append_drop]
      simp only [List.length_drop, List.length_cons] at hl ⊢
      omega

theorem chunksOf_flatten (bs : ℕ) (hbs : 0 < bs) (l : List β) :
    (chunksOf bs l).flatten = l :=
  chunksOfAux_flatten bs hbs l.length l le_rfl

theorem sum_map_div [DivisionRing R] (l : List R) (S : R) :
    (l.map fun w => w / S).sum = l.sum / S := by
  induction l with
  | nil => simp
  | cons a t ih => simp [ih, add_div]

theorem sum_pos_of_mem_pos [LinearOrderedField R] (l : List R)
    (h0 : ∀ x ∈ l, 0 ≤ x) (y : R) (hy : y ∈ l) (hyp : 0 < y) :
    0 < l.sum := by
  induction l with
  | nil => cases hy
  | cons a t ih =>
    rw [List.sum_cons]
    rcases List.mem_cons.mp hy with h | h
    · exact h ▸ add_pos_of_pos_of_nonneg hyp
        (List.sum_nonneg fun x hx => h0 x (List.mem_cons_of_mem _ hx))
    · exact add_pos_of_nonneg_of_pos (h0 a (List.mem_cons_self _ _))
        (ih (fun x hx => h0 x (List.mem_cons_of_mem _ hx)) h)

theorem samplingWeightsNorm_valid [LinearOrderedField R] (pw : ℕ → R)
    (allNodes : List α) (degrees : α → ℕ)
    (hpos : 0 < (samplingWeights pw allNodes degrees).sum)
    (h0 : ∀ w ∈ samplingWeights pw allNodes degrees, 0 ≤ w) :
    (samplingWeightsNorm pw allNodes degrees).sum = 1 ∧
      ∀ w ∈ samplingWeightsNorm pw allNodes degrees, 0 ≤ w := by
  constructor
  · rw [samplingWeightsNorm, sum_map_div, div_self (ne_of_gt hpos)]
  · intro w hw
    rw [samplingWeightsNorm] at hw
    obtain ⟨v, hv, rfl⟩ := List.mem_map.mp hw
    exact div_nonneg (h0 v hv) (le_of_lt hpos)

theorem negativePairsOf_eq_zip_map (pos : List (α × α)) (ns : List α) :
    negativePairsOf pos ns = (pos.zip ns).map fun pn => (pn.1.1, pn.2) := by
  rw [negativePairsOf]
  induction pos generalizing ns with
  | nil => simp
  | cons p t ih =>
    cases ns with
    | nil => simp
    | cons b m => simpa using ih m

theorem run_eq_check_error [Inhabited α] [LinearOrderedField R]
    (alg : RandomAlg α R) (pw : ℕ → R) (graphNodes : List α)
    (degrees : α → ℕ) (s : SamplerState α) (batchSize : PyVal)
    (e : RunError) (hbs : checkParameterValues batchSize = .error e) :
    run alg pw graphNodes degrees s batchSize = .error e := by
  simp only [run, hbs]

theorem run_eq_probs_error [Inhabited α] [LinearOrderedField R]
    (alg : RandomAlg α R) (pw : ℕ → R) (graphNodes : List α)
    (degrees : α → ℕ) (s : SamplerState α) (batchSize : PyVal) (n : ℤ)
    (hbs : checkParameterValues batchSize = .ok n)
    (hbad : ¬((samplingWeightsNorm pw graphNodes degrees).sum = 1 ∧
      ∀ w ∈ samplingWeightsNorm pw graphNodes degrees, 0 ≤ w)) :
    run alg pw graphNodes degrees s batchSize = .error .probabilitiesInvalid := by
  simp only [run, hbs]
  rw [if_neg hbad]

theorem run_eq_empty_error [Inhabited α] [LinearOrderedField R]
    (alg : RandomAlg α R) (pw : ℕ → R) (graphNodes : List α)
    (degrees : α → ℕ) (s : SamplerState α) (batchSize : PyVal) (n : ℤ)
    (hbs : checkParameterValues batchSize = .ok n)
    (hvalid : (samplingWeightsNorm pw graphNodes degrees).sum = 1 ∧
      ∀ w ∈ samplingWeightsNorm pw graphNodes degrees, 0 ≤ w)
    (hempty : positivePairsOf (walksOf alg s) = []) :
    run alg pw graphNodes degrees s batchSize = .error .emptyPositivePairs := by
  simp only [run, hbs]
  rw [if_pos hvalid]
  rw [if_pos (List.isEmpty_iff.mpr (by simpa [walksOf] using hempty))]

theorem run_eq_ok [Inhabited α] [LinearOrderedField R]
    (alg : RandomAlg α R) (pw : ℕ → R) (graphNodes : List α)
    (degrees : α → ℕ) (s : SamplerState α) (batchSize : PyVal) (n : ℤ)
    (hbs : checkParameterValues batchSize = .ok n)
    (hvalid : (samplingWeightsNorm pw graphNodes degrees).sum = 1 ∧
      ∀ w ∈ samplingWeightsNorm pw graphNodes degrees, 0 ≤ w)
    (hne : positivePairsOf (walksOf alg s) ≠ []) :
    run alg pw graphNodes degrees s batchSize =
      .ok ((chunksOf n.toNat (alg.perm s.seed (s.rngPos + 1)
              (poolOf alg pw graphNodes degrees s).length)).map fun bi =>
            (bi.map fun i => (poolOf alg pw graphNodes degrees s).getD i default,
             bi.map fun i =>
               (labelsOf (positivePairsOf (walksOf alg s)).length).getD i 0),
           ⟨s.nodes, s.length, s.numberOfWalks, s.seed, s.rngPos + 2,
            (alg.walkerRun s.seed s.walkerPos s.nodes s.length
              s.numberOfWalks).2⟩) := by
  simp only [run, hbs]
  rw [if_pos hvalid]
  rw [if_neg (fun hh => hne (by simpa [walksOf] using List.isEmpty_iff.mp hh))]
  simp only [poolOf, walksOf]

theorem positivePairsOf_cons [Inhabited α] (w : List α)
    (ws : List (List α)) :
    positivePairsOf (w :: ws) =
      ((w.drop 1).map fun c => (w.headI, c)) ++ positivePairsOf ws := by
  simp [positivePairsOf]

theorem walk_pairs_eq [Inhabited α] (w : List α) (hw : w ≠ []) :
    (w.drop 1).map (fun c => (w.headI, c)) =
      (List.range (w.length - 1)).map
        fun i => (w.getD 0 default, w.getD (i + 1) default) := by
  cases w with
  | nil => exact absurd rfl hw
  | cons a t =>
    have h1 : (List.range t.length).map (fun i => t.getD i default) = t :=
      getD_range_map t default
    simp only [List.drop_one, List.tail_cons, List.length_cons,
      Nat.add_sub_cancel, List.getD_cons_zero, List.getD_cons_succ,
      List.headI]
    conv_lhs => rw [← h1]
    rw [List.map_map]
    simp only [Function.comp_def]

theorem labelsOf_getD (P i : ℕ) :
    (labelsOf P).getD i 0 = if i < P then 1 else 0 := by
  rcases lt_or_ge i P with h | h
  · rw [labelsOf, List.getD_eq_getElem?_getD,
      List.getElem?_append_left (by simpa using h),
      List.getElem?_replicate, if_pos h, if_pos h]
    rfl
  · rw [labelsOf, List.getD_eq_getElem?_getD,
      List.getElem?_append_right (by simpa using h),
      List.getElem?_replicate, if_neg (Nat.not_lt.mpr h)]
    split
    · rfl
    · rfl

theorem labelsOf_sum (P : ℕ) : (labelsOf P).sum = P := by
  simp [labelsOf]

theorem labelsOf_length (P : ℕ) : (labelsOf P).length = 2 * P := by
  simp [labelsOf]
  omega

theorem checkParameterValues_ok_inv (v : PyVal) (n : ℤ)
    (h : checkParameterValues v = .ok n) :
    v = .intVal n ∧ 1 ≤ n ∧ n % 2 = 0 := by
  cases v with
  | noneVal => exact absurd h (by simp [checkParameterValues])
  | otherVal => exact absurd h (by simp [checkParameterValues])
  | intVal m =>
    rw [checkParameterValues] at h
    by_cases h1 : m < 1
    · rw [if_pos h1] at h; cases h
    · rw [if_neg h1] at h
      by_cases h2 : m % 2 ≠ 0
      · rw [if_pos h2] at h; cases h
      · rw [if_neg h2] at h
        cases h
        exact ⟨rfl, by omega, by simpa using h2⟩

end Helpers

/-- C1: for a collection of walks, each of length at least 2, the
walk-to-pair extraction emits, per walk and in walk order, exactly
`length - 1` positive pairs `(walk[0], walk[i])` for `i` in
`1..length-1`, in intra-walk context order; the total count is the sum of
`length - 1` over the walks. -/
theorem positivePairsOf_per_walk {α : Type} [Inhabited α]
    (walks : List (List α)) (hlen : ∀ w ∈ walks, 2 ≤ w.length) :
    positivePairsOf walks =
      walks.flatMap (fun w => (List.range (w.length - 1)).map
        fun i => (w.getD 0 default, w.getD (i + 1) default)) ∧
    (positivePairsOf walks).length =
      (walks.map fun w => w.length - 1).sum := by
  have hmain : positivePairsOf walks =
      walks.flatMap (fun w => (List.range (w.length - 1)).map
        fun i => (w.getD 0 default, w.getD (i + 1) default)) := by
    induction walks with
    | nil => simp [positivePairsOf]
    | cons w ws ih =>
      rw [positivePairsOf_cons, List.flatMap_cons,
        walk_pairs_eq w (by
          have := hlen w (List.mem_cons_self _ _)
          intro hnil
          rw [hnil] at this
          simp at this),
        ih fun u hu => hlen u (List.mem_cons_of_mem _ hu)]
  refine ⟨hmain, ?_⟩
  rw [hmain, List.length_flatMap]
  simp [List.map_map, Function.comp_def]

/-- Witness for C1 on two concrete walks of lengths 3 and 2. -/
theorem positivePairsOf_per_walk_w :
    positivePairsOf [[10, 11, 12], [5, 6]] =
      [(10, 11), (10, 12), (5, 6)] ∧
    (positivePairsOf [[10, 11, 12], [5, 6]]).length = 3 := by
  have h := positivePairsOf_per_walk [[10, 11, 12], [5, 6]] (by decide)
  exact ⟨by rw [h.1]; decide, by rw [h.2]; decide⟩

/-- C2: the negative draw requests exactly `len(positive_pairs)` context
nodes from `np_random.choice`, and the resulting negative pairs reuse
each positive pair's target in order: `negative_pairs[i] =
(positive_pairs[i].target, negative_samples[i])`, so the negative list
has exactly the positive list's length. -/
theorem negativePairs_matched {α R : Type} (alg : RandomAlg α R)
    (hchoice : ∀ seed pos nodes size p,
      (alg.choice seed pos nodes size p).length = size)
    (seed pos : ℕ) (allNodes : List α) (positivePairs : List (α × α))
    (p : List R) :
    (drawNegatives alg seed pos allNodes positivePairs p).length =
      positivePairs.length ∧
    negativePairsOf positivePairs
        (drawNegatives alg seed pos allNodes positivePairs p) =
      (positivePairs.zip
        (drawNegatives alg seed pos allNodes positivePairs p)).map
          (fun pn => (pn.1.1, pn.2)) ∧
    (negativePairsOf positivePairs
        (drawNegatives alg seed pos allNodes positivePairs p)).length =
      positivePairs.length := by
  refine ⟨hchoice seed pos allNodes positivePairs.length p,
    negativePairsOf_eq_zip_map _ _, ?_⟩
  rw [negativePairsOf, List.length_zip, List.length_map, drawNegatives,
    hchoice seed pos allNodes positivePairs.length p, min_self]

/-- Witness for C2 on a concrete positive-pair list of length 2. -/
theorem negativePairs_matched_w :
    (drawNegatives algSimple 0 0 [7, 8] [(7, 8), (8, 7)] []).length = 2 ∧
    (negativePairsOf [(7, 8), (8, 7)]
      (drawNegatives algSimple 0 0 [7, 8] [(7, 8), (8, 7)] [])).length = 2 := by
  have h := negativePairs_matched algSimple
    (fun seed pos nodes size p => by simp [algSimple]) 0 0 [7, 8]
    [(7, 8), (8, 7)] []
  exact ⟨h.1, h.2.2⟩

/-- C3: the combined pool is the positive pairs followed by the negative
pairs, the labels are the same-length run of 1s then 0s, `labels[i] = 1`
iff `i < len(positive_pairs)`, and twice the label sum is the label
count. -/
theorem pairs_labels_assembly {α : Type}
    (positivePairs negativePairs : List (α × α))
    (hlen : negativePairs.length = positivePairs.length) :
    (labelsOf positivePairs.length).length =
      (positivePairs ++ negativePairs).length ∧
    (∀ i, (labelsOf positivePairs.length).getD i 0 = 1 ↔
      i < positivePairs.length) ∧
    2 * (labelsOf positivePairs.length).sum =
      (labelsOf positivePairs.length).length := by
  refine ⟨?_, ?_, ?_⟩
  · rw [labelsOf_length, List.length_append, hlen]
    omega
  · intro i
    rw [labelsOf_getD]
    split
    · simpa
    · simp_all
  · rw [labelsOf_length, labelsOf_sum]

/-- Witness for C3 on concrete positive/negative lists of length 2. -/
theorem pairs_labels_assembly_w :
    (labelsOf ([(1, 2), (3, 4)] : List (ℕ × ℕ)).length).length =
      ([(1, 2), (3, 4)] ++ [(1, 7), (3, 7)] : List (ℕ × ℕ)).length ∧
    ((labelsOf ([(1, 2), (3, 4)] : List (ℕ × ℕ)).length).getD 1 0 = 1 ↔
      1 < ([(1, 2), (3, 4)] : List (ℕ × ℕ)).length) ∧
    2 * (labelsOf ([(1, 2), (3, 4)] : List (ℕ × ℕ)).length).sum =
      (labelsOf ([(1, 2), (3, 4)] : List (ℕ × ℕ)).length).length := by
  have h := pairs_labels_assembly [(1, 2), (3, 4)] [(1, 7), (3, 7)]
    (by decide)
  exact ⟨h.1, h.2.1 1, h.2.2⟩

theorem flatMap_map_chunks {γ : Type} (bs : ℕ) (hbs : 0 < bs)
    (idx : List ℕ) (g : ℕ → γ) :
    (chunksOf bs idx).flatMap (fun bi => bi.map g) = idx.map g := by
  rw [List.flatMap_def, ← List.map_flatten, chunksOf_flatten bs hbs]

/-- C4: whenever `run` succeeds, every returned batch has pair and label
lists of equal length, and the concatenation of all batches reproduces,
as a multiset, the full positive-plus-negative pool (and likewise the
labels), given numpy's contracts that `permutation m` permutes
`range m` and `choice` returns `size` draws: the single permutation is
split into consecutive chunks with no duplicates and no omissions. -/
theorem run_batches_partition {α R : Type} [Inhabited α]
    [LinearOrderedField R] (alg : RandomAlg α R) (pw : ℕ → R)
    (graphNodes : List α) (degrees : α → ℕ) (s : SamplerState α)
    (batchSize : PyVal) (n : ℤ)
    (batches : List (List (α × α) × List ℕ)) (s2 : SamplerState α)
    (hperm : ∀ seed pos m, (alg.perm seed pos m).Perm (List.range m))
    (hchoice : ∀ seed pos nodes size p,
      (alg.choice seed pos nodes size p).length = size)
    (hbs : checkParameterValues batchSize = .ok n)
    (hok : run alg pw graphNodes degrees s batchSize = .ok (batches, s2)) :
    (∀ b ∈ batches, b.1.length = b.2.length) ∧
    (batches.flatMap fun b => b.1).Perm
      (poolOf alg pw graphNodes degrees s) ∧
    (batches.flatMap fun b => b.2).Perm
      (labelsOf (positivePairsOf (walksOf alg s)).length) := by
  obtain ⟨-, hn1, -⟩ := checkParameterValues_ok_inv _ _ hbs
  have hnt : 0 < n.toNat := by omega
  by_cases hvalid : (samplingWeightsNorm pw graphNodes degrees).sum = 1 ∧
      ∀ w ∈ samplingWeightsNorm pw graphNodes degrees, 0 ≤ w
  · by_cases hne : positivePairsOf (walksOf alg s) = []
    · rw [run_eq_empty_error alg pw graphNodes degrees s batchSize n hbs
        hvalid hne] at hok
      cases hok
    · rw [run_eq_ok alg pw graphNodes degrees s batchSize n hbs hvalid
        hne] at hok
      injection hok with hok
      injection hok with hA hB
      subst hA
      have hpoollen : (poolOf alg pw graphNodes degrees s).length =
          (labelsOf (positivePairsOf (walksOf alg s)).length).length := by
        rw [poolOf, List.length_append, negativePairsOf, List.length_zip,
          List.length_map, drawNegatives, hchoice, min_self,
          labelsOf_length]
        omega
      refine ⟨?_, ?_, ?_⟩
      · intro b hb
        obtain ⟨bi, hbi, rfl⟩ := List.mem_map.mp hb
        simp
      · have h1 := flatMap_map_chunks n.toNat hnt
          (alg.perm s.seed (s.rngPos + 1)
            (poolOf alg pw graphNodes degrees s).length)
          (fun i => (poolOf alg pw graphNodes degrees s).getD i default)
        have h2 := (hperm s.seed (s.rngPos + 1)
            (poolOf alg pw graphNodes degrees s).length).map
          (fun i => (poolOf alg pw graphNodes degrees s).getD i default)
        rw [getD_range_map (poolOf alg pw graphNodes degrees s) default]
          at h2
        rw [List.flatMap_map]
        exact h1 ▸ h2
      · have h1 := flatMap_map_chunks n.toNat hnt
          (alg.perm s.seed (s.rngPos + 1)
            (poolOf alg pw graphNodes degrees s).length)
          (fun i => (labelsOf
            (positivePairsOf (walksOf alg s)).length).getD i 0)
        have h2 := (hperm s.seed (s.rngPos + 1)
            (poolOf alg pw graphNodes degrees s).length).map
          (fun i => (labelsOf
            (positivePairsOf (walksOf alg s)).length).getD i 0)
        have h3 : (List.range
            (poolOf alg pw graphNodes degrees s).length).map
            (fun i => (labelsOf
              (positivePairsOf (walksOf alg s)).length).getD i 0) =
            labelsOf (positivePairsOf (walksOf alg s)).length := by
          rw [hpoollen, getD_range_map]
        rw [h3] at h2
        rw [List.flatMap_map]
        exact h1 ▸ h2
  · rw [run_eq_probs_error alg pw graphNodes degrees s batchSize n hbs
      hvalid] at hok
    cases hok

/-- Witness for C4: a concrete two-node graph, two walks of length 2,
batch size 2; the two returned batches together are a permutation of the
four-pair pool. -/
theorem run_batches_partition_w :
    (([([(0, 0), (1, 1)], [1, 1]), ([(0, 0), (1, 1)], [0, 0])] :
        List (List (ℕ × ℕ) × List ℕ)).flatMap fun b => b.1).Perm
      (poolOf algSimple (fun d => (d : ℚ)) [0, 1] (fun _ => 1)
        ⟨[0, 1], 2, 1, 0, 0, 0⟩) := by
  have hvalid : (samplingWeightsNorm (fun d => (d : ℚ)) [0, 1]
        (fun _ => 1)).sum = 1 ∧
      ∀ w ∈ samplingWeightsNorm (fun d => (d : ℚ)) [0, 1] (fun _ => 1),
        0 ≤ w := by
    constructor
    · norm_num [samplingWeightsNorm, samplingWeights]
    · intro w hw
      simp only [samplingWeightsNorm, samplingWeights, List.map_cons,
        List.map_nil, List.mem_cons, List.not_mem_nil, or_false] at hw
      rcases hw with h | h <;> rw [h] <;> norm_num
  have hne : positivePairsOf
      (walksOf algSimple ⟨[0, 1], 2, 1, 0, 0, 0⟩) ≠ [] := by decide
  have hok := run_eq_ok algSimple (fun d => (d : ℚ)) [0, 1] (fun _ => 1)
    ⟨[0, 1], 2, 1, 0, 0, 0⟩ (.intVal 2) 2 rfl hvalid hne
  exact (run_batches_partition algSimple (fun d => (d : ℚ)) [0, 1]
    (fun _ => 1) ⟨[0, 1], 2, 1, 0, 0, 0⟩ (.intVal 2) 2 _ _
    (fun seed pos m => List.Perm.refl _)
    (fun seed pos nodes size p => by simp [algSimple])
    rfl hok).2.1

/-- C5: the negative-sampling distribution has one entry per node of the
graph's enumeration, in the same order, each equal to
`degree(n) ** 0.75` divided by the sum of all such weights, and whenever
some node has nonzero degree all entries are nonnegative and they sum to
exactly 1 (floats modelled as reals). -/
theorem samplingDistributionNorm_spec {α : Type} (allNodes : List α)
    (degrees : α → ℕ) (hdeg : ∃ m ∈ allNodes, degrees m ≠ 0) :
    samplingDistributionNorm allNodes degrees =
      allNodes.map (fun m => (degrees m : ℝ) ^ (0.75 : ℝ) /
        (allNodes.map fun k => (degrees k : ℝ) ^ (0.75 : ℝ)).sum) ∧
    (samplingDistributionNorm allNodes degrees).length = allNodes.length ∧
    (∀ w ∈ samplingDistributionNorm allNodes degrees, 0 ≤ w) ∧
    (samplingDistributionNorm allNodes degrees).sum = 1 := by
  have h0 : ∀ w ∈ samplingWeights (fun d => (d : ℝ) ^ (0.75 : ℝ))
      allNodes degrees, 0 ≤ w := by
    intro w hw
    obtain ⟨m, hm, rfl⟩ := List.mem_map.mp hw
    exact Real.rpow_nonneg (Nat.cast_nonneg _) _
  have hpos : 0 < (samplingWeights (fun d => (d : ℝ) ^ (0.75 : ℝ))
      allNodes degrees).sum := by
    obtain ⟨m, hm, hne⟩ := hdeg
    exact sum_pos_of_mem_pos _ h0 ((degrees m : ℝ) ^ (0.75 : ℝ))
      (List.mem_map_of_mem _ hm)
      (Real.rpow_pos_of_pos (by exact_mod_cast Nat.pos_of_ne_zero hne) _)
  obtain ⟨hsum, hnn⟩ := samplingWeightsNorm_valid _ _ _ hpos h0
  refine ⟨?_, ?_, hnn, hsum⟩
  · simp [samplingDistributionNorm, samplingWeightsNorm, samplingWeights,
      List.map_map, Function.comp_def]
  · simp [samplingDistributionNorm, samplingWeightsNorm, samplingWeights]

/-- Witness for C5: a two-node graph with degrees 0 and 1 has a
distribution summing to exactly 1. -/
theorem samplingDistributionNorm_spec_w :
    (samplingDistributionNorm [0, 1] (fun m => m)).sum = 1 :=
  (samplingDistributionNorm_spec [0, 1] (fun m => m)
    ⟨1, by decide, by decide⟩).2.2.2

/-- C6: when every node of the graph has degree zero, `run` (with the
real `degree ** 0.75` weights) surfaces the defined
`probabilitiesInvalid` error from `np_random.choice`'s probability-vector
validation, for any valid batch size, instead of silently producing
garbage. -/
theorem runReal_all_degrees_zero_error {α : Type} [Inhabited α]
    (alg : RandomAlg α ℝ) (graphNodes : List α) (degrees : α → ℕ)
    (s : SamplerState α) (batchSize : PyVal) (n : ℤ)
    (hbs : checkParameterValues batchSize = .ok n)
    (hdeg : ∀ m ∈ graphNodes, degrees m = 0) :
    runReal alg graphNodes degrees s batchSize =
      .error .probabilitiesInvalid := by
  rw [runReal]
  refine run_eq_probs_error alg _ graphNodes degrees s batchSize n hbs ?_
  rintro ⟨hsum, -⟩
  have hws : (samplingWeights (fun d => (d : ℝ) ^ (0.75 : ℝ))
      graphNodes degrees).sum = 0 := by
    refine List.sum_eq_zero ?_
    intro x hx
    obtain ⟨m, hm, rfl⟩ := List.mem_map.mp hx
    rw [hdeg m hm]
    norm_num [Real.zero_rpow]
  rw [samplingWeightsNorm, sum_map_div, hws, div_zero] at hsum
  exact one_ne_zero hsum.symm

/-- Witness for C6: a one-node graph whose node has degree zero makes
`run` fail with the probability-validation error. -/
theorem runReal_all_degrees_zero_error_w :
    runReal algRealSimple [3] (fun _ => 0) ⟨[3], 2, 1, 0, 0, 0⟩
      (.intVal 2) = .error .probabilitiesInvalid :=
  runReal_all_degrees_zero_error algRealSimple [3] (fun _ => 0)
    ⟨[3], 2, 1, 0, 0, 0⟩ (.intVal 2) 2 rfl (by decide)

/-- C7: `run` rejects a missing, non-integer, non-positive, or odd
`batch_size` with four distinguishable errors, raised by the parameter
check before any sampling work (the error of the check is the error of
`run`, whatever the graph, walker and stream state), and accepts every
positive even integer. -/
theorem checkParameterValues_spec {α R : Type} [Inhabited α]
    [LinearOrderedField R] (alg : RandomAlg α R) (pw : ℕ → R)
    (graphNodes : List α) (degrees : α → ℕ) (s : SamplerState α) :
    checkParameterValues .noneVal = .error .batchSizeMissing ∧
    checkParameterValues .otherVal = .error .batchSizeNotInt ∧
    (∀ m : ℤ, m < 1 →
      checkParameterValues (.intVal m) = .error .batchSizeNotPositive) ∧
    (∀ m : ℤ, 1 ≤ m → m % 2 ≠ 0 →
      checkParameterValues (.intVal m) = .error .batchSizeOdd) ∧
    (∀ m : ℤ, 1 ≤ m → m % 2 = 0 →
      checkParameterValues (.intVal m) = .ok m) ∧
    (∀ (v : PyVal) (e : RunError), checkParameterValues v = .error e →
      run alg pw graphNodes degrees s v = .error e) := by
  refine ⟨rfl, rfl, ?_, ?_, ?_, ?_⟩
  · intro m h
    simp only [checkParameterValues]
    rw [if_pos h]
  · intro m h1 h2
    simp only [checkParameterValues]
    rw [if_neg (by omega), if_pos h2]
  · intro m h1 h2
    simp only [checkParameterValues]
    rw [if_neg (by omega), if_neg (not_not_intro h2)]
  · intro v e h
    exact run_eq_check_error alg pw graphNodes degrees s v e h

/-- Witness for C7: batch size 0 is rejected as non-positive, 3 as odd,
4 is accepted, and a missing batch size makes `run` fail before any
sampling. -/
theorem checkParameterValues_spec_w :
    checkParameterValues (.intVal 0) = .error .batchSizeNotPositive ∧
    checkParameterValues (.intVal 3) = .error .batchSizeOdd ∧
    checkParameterValues (.intVal 4) = .ok 4 ∧
    run algSimple (fun d => (d : ℚ)) [0] (fun _ => 1) ⟨[0], 2, 1, 0, 0, 0⟩
      .noneVal = .error .batchSizeMissing := by
  have h := checkParameterValues_spec algSimple (fun d => (d : ℚ)) [0]
    (fun _ => 1) ⟨[0], 2, 1, 0, 0, 0⟩
  exact ⟨h.2.2.1 0 (by decide), h.2.2.2.1 3 (by decide) (by decide),
    h.2.2.2.2.1 4 (by decide) (by decide), h.2.2.2.2.2 .noneVal _ rfl⟩

/-- C8: construction fails when the walk length is below 2 or the number
of walks below 1 (whatever the root-node argument, as long as it is not
itself rejected first), fails when the root-node argument is not a real
iterable, and otherwise succeeds with the supplied roots — defaulting to
all graph nodes when the argument is omitted; length 2 is accepted. -/
theorem initSampler_spec {α : Type} (graphNodes l : List α)
    (length numberOfWalks : ℤ) (seed : ℕ) :
    (∀ arg : NodesArg α, arg ≠ .scalarArg → length < 2 →
      initSampler graphNodes arg length numberOfWalks seed =
        .error .walkLengthTooShort) ∧
    (∀ arg : NodesArg α, arg ≠ .scalarArg → 2 ≤ length →
      numberOfWalks < 1 →
      initSampler graphNodes arg length numberOfWalks seed =
        .error .numberOfWalksTooSmall) ∧
    initSampler graphNodes .scalarArg length numberOfWalks seed =
      .error .nodesNotIterable ∧
    (2 ≤ length → 1 ≤ numberOfWalks →
      initSampler graphNodes .noneArg length numberOfWalks seed =
        .ok ⟨graphNodes, length, numberOfWalks, seed, 0, 0⟩) ∧
    (2 ≤ length → 1 ≤ numberOfWalks →
      initSampler graphNodes (.iterableArg l) length numberOfWalks seed =
        .ok ⟨l, length, numberOfWalks, seed, 0, 0⟩) := by
  refine ⟨?_, ?_, rfl, ?_, ?_⟩
  · intro arg hs hl
    cases arg with
    | scalarArg => exact absurd rfl hs
    | noneArg =>
      simp only [initSampler]
      rw [if_pos hl]
    | iterableArg l2 =>
      simp only [initSampler]
      rw [if_pos hl]
  · intro arg hs hl hn
    cases arg with
    | scalarArg => exact absurd rfl hs
    | noneArg =>
      simp only [initSampler]
      rw [if_neg (by omega), if_pos hn]
    | iterableArg l2 =>
      simp only [initSampler]
      rw [if_neg (by omega), if_pos hn]
  · intro hl hn
    simp only [initSampler]
    rw [if_neg (by omega), if_neg (by omega)]
  · intro hl hn
    simp only [initSampler]
    rw [if_neg (by omega), if_neg (by omega)]

/-- Witness for C8: length 1 and zero walks are rejected, a scalar
root-node argument is rejected, and length 2 with one walk succeeds with
the default (all nodes) and with explicit roots. -/
theorem initSampler_spec_w :
    initSampler ([0, 1] : List ℕ) .noneArg 1 1 7 =
      .error .walkLengthTooShort ∧
    initSampler ([0, 1] : List ℕ) .noneArg 2 0 7 =
      .error .numberOfWalksTooSmall ∧
    initSampler ([0, 1] : List ℕ) .scalarArg 2 1 7 =
      .error .nodesNotIterable ∧
    initSampler ([0, 1] : List ℕ) .noneArg 2 1 7 =
      .ok ⟨[0, 1], 2, 1, 7, 0, 0⟩ ∧
    initSampler ([0, 1] : List ℕ) (.iterableArg [5]) 2 1 7 =
      .ok ⟨[5], 2, 1, 7, 0, 0⟩ :=
  ⟨(initSampler_spec [0, 1] [5] 1 1 7).1 .noneArg (by decide) (by decide),
   (initSampler_spec [0, 1] [5] 2 0 7).2.1 .noneArg (by decide)
     (by decide) (by decide),
   (initSampler_spec ([0, 1] : List ℕ) [5] 2 1 7).2.2.1,
   (initSampler_spec [0, 1] [5] 2 1 7).2.2.2.1 (by decide) (by decide),
   (initSampler_spec [0, 1] [5] 2 1 7).2.2.2.2 (by decide) (by decide)⟩

/-- C9: two independently constructed engine instances with the same
seed and identical configuration are in identical states, so the same
sequence of `run` calls (with the external random algorithms fixed)
produces identical batch sequences. -/
theorem run_deterministic_same_seed {α R : Type} [Inhabited α]
    [LinearOrderedField R] (alg : RandomAlg α R) (pw : ℕ → R)
    (graphNodes : List α) (degrees : α → ℕ) (arg : NodesArg α)
    (length numberOfWalks : ℤ) (seed : ℕ) (s1 s2 : SamplerState α)
    (batchSizes : List PyVal)
    (h1 : initSampler graphNodes arg length numberOfWalks seed = .ok s1)
    (h2 : initSampler graphNodes arg length numberOfWalks seed = .ok s2) :
    runSeq alg pw graphNodes degrees s1 batchSizes =
      runSeq alg pw graphNodes degrees s2 batchSizes := by
  have hs : s1 = s2 := Except.ok.inj (h1.symm.trans h2)
  rw [hs]

/-- Witness for C9: two instances built from seed 7 and the same
configuration yield the same one-call batch sequence. -/
theorem run_deterministic_same_seed_w :
    runSeq algSimple (fun d => (d : ℚ)) [0] (fun _ => 1)
      ⟨[0], 2, 1, 7, 0, 0⟩ [.intVal 2] =
    runSeq algSimple (fun d => (d : ℚ)) [0] (fun _ => 1)
      ⟨[0], 2, 1, 7, 0, 0⟩ [.intVal 2] :=
  run_deterministic_same_seed algSimple (fun d => (d : ℚ)) [0]
    (fun _ => 1) .noneArg 2 1 7 _ _ [.intVal 2] rfl rfl

/-- C10: with a valid batch size and a graph having some nonzero degree,
a configuration whose walker returns no walks (e.g. an empty root-node
collection) makes `run` fail with the `IndexError` from indexing column
0 of the empty pair array; `run` returns normally only when at least one
positive pair was produced. -/
theorem run_empty_walks_fails {α R : Type} [Inhabited α]
    [LinearOrderedField R] (alg : RandomAlg α R) (pw : ℕ → R)
    (graphNodes : List α) (degrees : α → ℕ) (s : SamplerState α)
    (batchSize : PyVal) (n : ℤ)
    (hbs : checkParameterValues batchSize = .ok n)
    (hpw0 : ∀ d, 0 ≤ pw d) (hpw : ∀ d, 0 < d → 0 < pw d)
    (hdeg : ∃ m ∈ graphNodes, degrees m ≠ 0) :
    (walksOf alg s = [] →
      run alg pw graphNodes degrees s batchSize =
        .error .emptyPositivePairs) ∧
    ∀ out s2, run alg pw graphNodes degrees s batchSize = .ok (out, s2) →
      positivePairsOf (walksOf alg s) ≠ [] := by
  have h0 : ∀ w ∈ samplingWeights pw graphNodes degrees, 0 ≤ w := by
    intro w hw
    obtain ⟨m, hm, rfl⟩ := List.mem_map.mp hw
    exact hpw0 _
  have hpos : 0 < (samplingWeights pw graphNodes degrees).sum := by
    obtain ⟨m, hm, hne⟩ := hdeg
    exact sum_pos_of_mem_pos _ h0 (pw (degrees m))
      (List.mem_map_of_mem _ hm) (hpw _ (Nat.pos_of_ne_zero hne))
  have hvalid := samplingWeightsNorm_valid pw graphNodes degrees hpos h0
  constructor
  · intro hwalks
    refine run_eq_empty_error alg pw graphNodes degrees s batchSize n hbs
      hvalid ?_
    rw [hwalks]
    rfl
  · intro out s2 hok hemp
    rw [run_eq_empty_error alg pw graphNodes degrees s batchSize n hbs
      hvalid hemp] at hok
    cases hok

/-- Witness for C10: an explicitly empty root-node list on a two-node
graph with nonzero degrees makes `run(2)` fail with the empty-pair-array
error. -/
theorem run_empty_walks_fails_w :
    run algSimple (fun d => (d : ℚ)) [0, 1] (fun _ => 1)
      ⟨[], 2, 1, 0, 0, 0⟩ (.intVal 2) = .error .emptyPositivePairs :=
  (run_empty_walks_fails algSimple (fun d => (d : ℚ)) [0, 1] (fun _ => 1)
    ⟨[], 2, 1, 0, 0, 0⟩ (.intVal 2) 2 rfl (fun d => Nat.cast_nonneg d)
    (fun d hd => by simpa using Nat.cast_pos.mpr hd)
    ⟨0, by decide, by decide⟩).1 rfl

end UnsupervisedSampler
